import Mathlib

/-!
Verification development for the `ddo` branch-and-bound MDD solver.

This file gives a shallow embedding, in Lean 4, of:
  * the common data types (`Variable`, `Decision`, `Node`, `NodeInfo`),
  * the MCP (maximum cut) relaxation `McpRelax` from `examples/mcp/relax.rs`,
  * the branch-and-bound driver `BBSolver::maximize` from
    `src/core/implementation/bb_solver.rs`,
and proves properties of these embeddings.

Conventions:
  * Rust `i32` values are modelled as unbounded `Int` (none of the proved
    properties hinges on 32-bit wrap-around).
  * Rust operations that can panic (out-of-bounds `Vec` indexing,
    `Option::unwrap` on `None`) are modelled in the `Option` monad:
    a `none` result marks a panicking execution.
-/

namespace Ddo

/-- A variable of the optimization problem, identified by its index
(`Variable(pub usize)` in `common.rs`). -/
structure Variable where
  val : Nat
deriving Repr, DecidableEq

/-- The numeric id of a variable (`Variable::id`). -/
def Variable.id (v : Variable) : Nat := v.val

/-- A decision `[[ variable = value ]]` made along an arc (`common.rs`). -/
structure Decision where
  «variable» : Variable
  value : Int
deriving Repr, DecidableEq

/-- Modelled from the spec: `NodeInfo` is the per-node bookkeeping of the
diagram (the defining module `core/common.rs` of this revision is not part
of the sources; fields `is_exact`, `lp_len`, `lp_arc`, `ub` are those the
spec describes and `relax.rs` / `bb_solver.rs` use). The `lp_arc` is the
incoming arc realizing the longest path: a decision together with a shared
reference to the parent `NodeInfo`. -/
inductive NodeInfo (T : Type) : Type where
  | mk (is_exact : Bool) (lp_len : Int) (lp_arc : Option (Decision × NodeInfo T)) (ub : Int)

/-- Whether the longest path to this node consists only of exact arcs. -/
def NodeInfo.is_exact {T : Type} : NodeInfo T → Bool
  | .mk e _ _ _ => e

/-- Length of the longest root-to-node path discovered so far. -/
def NodeInfo.lp_len {T : Type} : NodeInfo T → Int
  | .mk _ l _ _ => l

/-- The incoming arc realizing the longest path, if any. -/
def NodeInfo.lp_arc {T : Type} : NodeInfo T → Option (Decision × NodeInfo T)
  | .mk _ _ a _ => a

/-- Upper bound on the value of any completion through this node. -/
def NodeInfo.ub {T : Type} : NodeInfo T → Int
  | .mk _ _ _ u => u

/-- Replace the `ub` field (models `info.ub = ...` on a `mut` binding). -/
def NodeInfo.withUb {T : Type} : NodeInfo T → Int → NodeInfo T
  | .mk e l a _, u => .mk e l a u

/-- Modelled from the spec: reconstruction of the list of decisions along
the longest path, walking `lp_arc` links backward to the root and
collecting decisions in reverse (`NodeInfo::longest_path`, whose defining
module is not part of the sources). -/
def NodeInfo.longest_path {T : Type} : NodeInfo T → List Decision
  | .mk _ _ none _ => []
  | .mk _ _ (some (d, parent)) _ => parent.longest_path ++ [d]

/-- A node of the diagram: a problem state plus its bookkeeping
(`Node<T>` of `core/common.rs`, as used by `relax.rs` and
`bb_solver.rs`). -/
structure Node (T : Type) where
  state : T
  info : NodeInfo T

end Ddo

namespace Ddo.Mcp

open Ddo

/-- Modelled from the spec: the state of the MCP dynamic program
(`McpState` of `examples/mcp/model.rs`, not part of the sources; its two
fields `initial` and `benef` are visible in `relax.rs`, which builds
`McpState{ initial: false, benef: data }` and reads `state.benef[v.id()]`). -/
structure McpState where
  initial : Bool
  benef : List Int
deriving Repr, DecidableEq

/-- The data of `McpRelax` that its merging functions consume: the
problem's variable count (`pb.nb_vars()`) and the variable set over which
the relaxation iterates (`self.vars`, initialized by `McpRelax::new` to
`pb.all_vars()`, iterated in ascending order). -/
structure McpRelax where
  nb_vars : Nat
  vars : List Variable

/-- `McpRelax::new(pb)`: the variable set is `pb.all_vars()`, i.e. all of
`0 .. nb_vars`. -/
def McpRelax.new (nb_vars : Nat) : McpRelax :=
  ⟨nb_vars, (List.range nb_vars).map Variable.mk⟩

/-- The bit flag `McpRelax::POSITIVE`. -/
def POSITIVE : Nat := 1

/-- The bit flag `McpRelax::NEGATIVE`. -/
def NEGATIVE : Nat := 2

/-- Loop of `McpRelax::substate_signs`: accumulate the sign bits of the
substates `node.state.benef[v.id()]`, returning early as soon as
`signs > 0`. A `none` result models the panic on an out-of-bounds
index. -/
def substate_signs_go (v : Variable) : List (Node McpState) → Nat → Option Nat
  | [], signs => some signs
  | node :: rest, signs =>
    match node.state.benef.get? v.id with
    | none => none
    | some substate =>
      let signs' :=
        if substate < 0 then signs ||| NEGATIVE
        else if substate > 0 then signs ||| POSITIVE
        else signs
      if signs' > 0 then some signs' else substate_signs_go v rest signs'

/-- `McpRelax::substate_signs`. -/
def substate_signs (v : Variable) (nodes : List (Node McpState)) : Option Nat :=
  substate_signs_go v nodes 0

/-- `McpRelax::minimum_substate`:
`nodes.iter().map(|n| n.state.benef[v.id()]).min().unwrap()`.
`none` models either an indexing panic or the `unwrap` panic on an empty
iterator. -/
def minimum_substate (v : Variable) (nodes : List (Node McpState)) : Option Int := do
  let vals ← nodes.mapM (fun n => n.state.benef.get? v.id)
  vals.min?

/-- `McpRelax::minimum_abs_value_of_substate`. -/
def minimum_abs_value_of_substate (v : Variable) (nodes : List (Node McpState)) :
    Option Int := do
  let vals ← nodes.mapM (fun n => (n.state.benef.get? v.id).map (fun x => |x|))
  vals.min?

/-- `McpRelax::merge_substates`. -/
def merge_substates (v : Variable) (nodes : List (Node McpState)) : Option Int := do
  let signs ← substate_signs v nodes
  if signs = POSITIVE then minimum_substate v nodes
  else if signs = NEGATIVE then do
    let m ← minimum_abs_value_of_substate v nodes
    pure (-m)
  else pure 0

/-- `McpRelax::merge_states`: start from `vec![0; nb_vars]` and set the
entry of every variable of `self.vars` to its merged substate. The
explicit bound check models the panic of `data[v.id()] = ...` when
`v.id() >= nb_vars`. -/
def merge_states (r : McpRelax) (nodes : List (Node McpState)) : Option McpState := do
  let data ← r.vars.foldlM
    (fun data v => do
      let s ← merge_substates v nodes
      if v.id < data.length then pure (data.set v.id s) else none)
    (List.replicate r.nb_vars (0 : Int))
  pure ⟨false, data⟩

/-- `McpRelax::difference_of_abs_benefit`:
`u.benef[l.id()].abs() - m.benef[l.id()].abs()`. -/
def difference_of_abs_benefit (l : Variable) (u m : McpState) : Option Int := do
  let a ← u.benef.get? l.id
  let b ← m.benef.get? l.id
  pure (|a| - |b|)

/-- The selection loop at the end of `McpRelax::relax_cost`: scan the
relaxed costs keeping the running maximum `longest` and the index `best`
of its first occurrence (`if cost > longest` is strict, so ties keep the
earlier index). -/
def select_best_go : List Int → Nat → Nat → Int → Nat × Int
  | [], _, best, longest => (best, longest)
  | c :: rest, idx, best, longest =>
    if c > longest then select_best_go rest (idx + 1) idx c
    else select_best_go rest (idx + 1) best longest

/-- `McpRelax::relax_cost`: start from the input `lp_len`s, add for every
variable of `self.vars` the difference of absolute benefits between each
input state and the merged state, then return the maximal adjusted cost
together with the node realizing it. `none` models the panic of
`relaxed_costs[0]` on an empty input slice, or an indexing panic in the
inner loop. -/
def relax_cost (r : McpRelax) (nodes : List (Node McpState)) (merged : McpState) :
    Option (Int × Node McpState) := do
  let relaxed_costs ← r.vars.foldlM
    (fun (costs : List Int) (v : Variable) =>
      (costs.zip nodes).mapM
        (fun cn => (difference_of_abs_benefit v cn.2.state merged).map (fun d => cn.1 + d)))
    (nodes.map (fun n => n.info.lp_len))
  match relaxed_costs with
  | [] => none
  | c0 :: crest =>
    let bl := select_best_go (c0 :: crest) 0 0 c0
    match nodes.get? bl.1 with
    | none => none
    | some via => pure (bl.2, via)

/-- The adjusted cost of one input node under a merged state: its
`lp_len` plus, for every variable of the relaxation's variable set, the
difference of absolute benefits between the node's state and the merged
state. `relax_cost` computes exactly these values for all input nodes at
once (its outer loop runs over the variables, its inner loop over the
nodes). -/
def adjusted_cost (r : McpRelax) (n : Node McpState) (merged : McpState) : Option Int :=
  r.vars.foldlM
    (fun c v => (difference_of_abs_benefit v n.state merged).map (fun d => c + d))
    n.info.lp_len

/-- `McpRelax::merge_nodes` (the `Relaxation` impl): merge the states,
relax the cost, and return a non-exact node carrying the representative's
`lp_arc` and `ub` with the relaxed cost as `lp_len`. -/
def merge_nodes (r : McpRelax) (nodes : List (Node McpState)) : Option (Node McpState) := do
  let relaxed_state ← merge_states r nodes
  let lv ← relax_cost r nodes relaxed_state
  pure ⟨relaxed_state,
        .mk false lv.1 lv.2.info.lp_arc lv.2.info.ub⟩

end Ddo.Mcp

namespace Ddo.BB

open Ddo

/-- `std::i32::MAX`. -/
def i32Max : Int := 2147483647

/-- `std::i32::MIN`. -/
def i32Min : Int := -2147483648

/-- The observable outcome of one MDD compilation (`restricted` or
`relaxed`): the results afterwards queried through the `MDD` trait —
`is_exact()`, `best_value()`, `best_node()`, and the cutset that
`consume_cutset` hands over. -/
structure CompOutcome (T : Type) where
  is_exact : Bool
  best_value : Int
  best_node : Option (NodeInfo T)
  cutset : List (Node T)

/-- The environment of `BBSolver`: the abstract `MDD<T>` implementation
`DD` together with the `LoadVars` heuristic `VARS`. A deterministic MDD's
compilation outcome is a function of the compilation request (free
variables, root node, current lower bound); `V` is the opaque `VarSet`
type handed from `load_vars` to the compilations. -/
structure MddModel (T V : Type) where
  root : Node T
  load_vars : Node T → V
  restrictedRun : V → Node T → Int → CompOutcome T
  relaxedRun : V → Node T → Int → CompOutcome T

/-- The mutable state of `BBSolver` during `maximize`, plus two ghost
counters recording how many times `mdd.restricted(..)` and
`mdd.relaxed(..)` have been invoked. The fringe (a `BinaryHeap`) is
modelled as the list of its elements. -/
structure SolverState (T : Type) where
  fringe : List (Node T)
  explored : Nat
  best_ub : Int
  best_lb : Int
  best_node : Option (NodeInfo T)
  best_sol : Option (List Decision)
  restrictedCalls : Nat
  relaxedCalls : Nat

/-- The state built by `BBSolver::new`: empty fringe, `explored = 0`,
`best_ub = i32::MAX`, `best_lb = i32::MIN`, no best node and no best
solution. -/
def initState (T : Type) : SolverState T :=
  ⟨[], 0, i32Max, i32Min, none, none, 0, 0⟩

/-- `BinaryHeap::pop` modelled on the element list: remove and return a
maximal element with respect to the heap's comparator `le` (`none` iff
the heap is empty). Which maximal element a binary heap returns among
ties is unspecified; this model removes the first one. -/
def popMax {α : Type} (le : α → α → Bool) : List α → Option (α × List α)
  | [] => none
  | x :: xs =>
    match popMax le xs with
    | none => some (x, [])
    | some yys => if le x yys.1 then some (yys.1, x :: yys.2) else some (x, xs)

/-- The update `if node.info.ub < self.best_ub { self.best_ub = node.info.ub }`. -/
def updateUb {T : Type} (s : SolverState T) (node : Node T) : SolverState T :=
  if node.info.ub < s.best_ub then { s with best_ub := node.info.ub } else s

/-- The update `if mdd.best_value() > best_lb { best_lb = ..; best_node = .. }`
applied after a compilation. -/
def applyBest {T : Type} (s : SolverState T) (out : CompOutcome T) : SolverState T :=
  if out.best_value > s.best_lb then
    { s with best_lb := out.best_value, best_node := out.best_node }
  else s

/-- The cutset consumption closure of `maximize`:
`mdd.consume_cutset(|state, mut info| { info.ub = best_ub.min(info.ub);
if info.ub > best_lb { fringe.push(Node{state, info}) } })`. -/
def consumeCutsetInto {T : Type} (best_ub best_lb : Int) (cutset : List (Node T))
    (fringe : List (Node T)) : List (Node T) :=
  cutset.foldl
    (fun fr n =>
      let info := n.info.withUb (min best_ub n.info.ub)
      if info.ub > best_lb then ⟨n.state, info⟩ :: fr else fr)
    fringe

/-- The solver state right after popping `node` from the fringe (so the
fringe now holds `rest`) and running the `best_ub` update. -/
def stepU {T : Type} (s : SolverState T) (node : Node T) (rest : List (Node T)) :
    SolverState T :=
  updateUb { s with fringe := rest } node

/-- The solver state after the restriction phase of an explored node:
`explored` is incremented, `mdd.restricted(vars, &node, best_lb)` is run
(hence the ghost `restrictedCalls` is incremented) and the `best_lb` /
`best_node` update is applied to its outcome. -/
def stepRestrict {T V : Type} (m : MddModel T V) (s : SolverState T) (node : Node T)
    (rest : List (Node T)) : SolverState T :=
  let s1 := stepU s node rest
  let s2 := { s1 with explored := s1.explored + 1 }
  applyBest { s2 with restrictedCalls := s2.restrictedCalls + 1 }
    (m.restrictedRun (m.load_vars node) node s2.best_lb)

/-- The solver state after the relaxation phase of an explored node whose
restricted MDD was not exact: `mdd.relaxed(vars, &node, best_lb)` is run
(ghost `relaxedCalls` incremented); if the relaxed MDD is exact the
`best_lb` / `best_node` update is applied, otherwise the cutset is
consumed into the fringe. -/
def stepRelax {T V : Type} (m : MddModel T V) (s : SolverState T) (node : Node T)
    (rest : List (Node T)) : SolverState T :=
  let s3 := stepRestrict m s node rest
  let xOut := m.relaxedRun (m.load_vars node) node s3.best_lb
  let s4 := { s3 with relaxedCalls := s3.relaxedCalls + 1 }
  if xOut.is_exact then applyBest s4 xOut
  else { s4 with fringe := consumeCutsetInto s4.best_ub s4.best_lb xOut.cutset s4.fringe }

/-- One iteration of the `while !self.fringe.is_empty()` loop of
`BBSolver::maximize`. Returns `none` when the fringe is empty (the loop
guard fails), `some (true, s)` when the iteration executes `break`, and
`some (false, s)` when it falls through or executes `continue`. -/
def bbStep {T V : Type} (m : MddModel T V) (le : Node T → Node T → Bool)
    (s : SolverState T) : Option (Bool × SolverState T) :=
  match popMax le s.fringe with
  | none => none
  | some (node, rest) =>
    let s1 := stepU s node rest
    if s1.best_lb ≥ s1.best_ub then some (true, s1)
    else if node.info.ub < s1.best_lb then some (false, s1)
    else if (m.restrictedRun (m.load_vars node) node s1.best_lb).is_exact then
      some (false, stepRestrict m s node rest)
    else some (false, stepRelax m s node rest)

/-- The driver loop of `maximize`, fuel-indexed: `none` models a run that
has not terminated within `fuel` iterations, `some s` the state in which
the loop exited (guard failure or `break`). -/
def bbLoop {T V : Type} (m : MddModel T V) (le : Node T → Node T → Bool) :
    Nat → SolverState T → Option (SolverState T)
  | 0, _ => none
  | fuel + 1, s =>
    match bbStep m le s with
    | none => some s
    | some (true, s') => some s'
    | some (false, s') => bbLoop m le fuel s'

/-- The post-loop write of `maximize`:
`if let Some(bn) = &self.best_node { self.best_sol = Some(bn.longest_path()) }`. -/
def finalizeSol {T : Type} (s : SolverState T) : SolverState T :=
  match s.best_node with
  | some bn => { s with best_sol := some bn.longest_path }
  | none => s

/-- `BBSolver::maximize`: push the root node, run the loop, then
reconstruct `best_sol` from `best_node` when the latter is present, and
return `(best_lb, best_sol)`. The result also carries the final solver
state so that theorems can relate the returned pair to it (a `none`
result models a run that does not terminate within `fuel` iterations). -/
def maximize {T V : Type} (m : MddModel T V) (le : Node T → Node T → Bool)
    (fuel : Nat) (s0 : SolverState T) :
    Option (SolverState T × Int × Option (List Decision)) :=
  (bbLoop m le fuel { s0 with fringe := m.root :: s0.fringe }).map
    (fun s => (finalizeSol s, (finalizeSol s).best_lb, (finalizeSol s).best_sol))

/-- A trivial problem instance used to instantiate the driver theorems on
concrete inputs: a single-node search space whose compilations are exact
with value `0`. -/
def trivModel : MddModel Unit Unit where
  root := ⟨(), .mk true 0 none 0⟩
  load_vars := fun _ => ()
  restrictedRun := fun _ _ _ => ⟨true, 0, none, []⟩
  relaxedRun := fun _ _ _ => ⟨true, 0, none, []⟩

/-- A degenerate node comparator (every pair comparable), enough to drive
the heap model on concrete inputs. -/
def leTrue : Node Unit → Node Unit → Bool := fun _ _ => true

end Ddo.BB

namespace Ddo.BB

theorem ub_withUb {T : Type} (info : NodeInfo T) (u : Int) : (info.withUb u).ub = u := by
  cases info
  rfl

theorem updateUb_eq {T : Type} (s : SolverState T) (n : Node T) :
    updateUb s n = { s with best_ub := min s.best_ub n.info.ub } := by
  unfold updateUb
  split
  · have hm : min s.best_ub n.info.ub = n.info.ub := by omega
    rw [hm]
  · have hm : min s.best_ub n.info.ub = s.best_ub := by omega
    rw [hm]

@[simp] theorem stepU_fringe {T : Type} (s : SolverState T) (node : Node T)
    (rest : List (Node T)) : (stepU s node rest).fringe = rest := by
  simp [stepU, updateUb_eq]

@[simp] theorem stepU_best_lb {T : Type} (s : SolverState T) (node : Node T)
    (rest : List (Node T)) : (stepU s node rest).best_lb = s.best_lb := by
  simp [stepU, updateUb_eq]

@[simp] theorem stepU_best_ub {T : Type} (s : SolverState T) (node : Node T)
    (rest : List (Node T)) : (stepU s node rest).best_ub = min s.best_ub node.info.ub := by
  simp [stepU, updateUb_eq]

@[simp] theorem stepU_explored {T : Type} (s : SolverState T) (node : Node T)
    (rest : List (Node T)) : (stepU s node rest).explored = s.explored := by
  simp [stepU, updateUb_eq]

@[simp] theorem stepU_best_node {T : Type} (s : SolverState T) (node : Node T)
    (rest : List (Node T)) : (stepU s node rest).best_node = s.best_node := by
  simp [stepU, updateUb_eq]

@[simp] theorem stepU_best_sol {T : Type} (s : SolverState T) (node : Node T)
    (rest : List (Node T)) : (stepU s node rest).best_sol = s.best_sol := by
  simp [stepU, updateUb_eq]

@[simp] theorem stepU_restrictedCalls {T : Type} (s : SolverState T) (node : Node T)
    (rest : List (Node T)) : (stepU s node rest).restrictedCalls = s.restrictedCalls := by
  simp [stepU, updateUb_eq]

@[simp] theorem stepU_relaxedCalls {T : Type} (s : SolverState T) (node : Node T)
    (rest : List (Node T)) : (stepU s node rest).relaxedCalls = s.relaxedCalls := by
  simp [stepU, updateUb_eq]

@[simp] theorem applyBest_fringe {T : Type} (s : SolverState T) (o : CompOutcome T) :
    (applyBest s o).fringe = s.fringe := by
  unfold applyBest
  split <;> rfl

@[simp] theorem applyBest_explored {T : Type} (s : SolverState T) (o : CompOutcome T) :
    (applyBest s o).explored = s.explored := by
  unfold applyBest
  split <;> rfl

@[simp] theorem applyBest_best_ub {T : Type} (s : SolverState T) (o : CompOutcome T) :
    (applyBest s o).best_ub = s.best_ub := by
  unfold applyBest
  split <;> rfl

@[simp] theorem applyBest_best_sol {T : Type} (s : SolverState T) (o : CompOutcome T) :
    (applyBest s o).best_sol = s.best_sol := by
  unfold applyBest
  split <;> rfl

@[simp] theorem applyBest_restrictedCalls {T : Type} (s : SolverState T) (o : CompOutcome T) :
    (applyBest s o).restrictedCalls = s.restrictedCalls := by
  unfold applyBest
  split <;> rfl

@[simp] theorem applyBest_relaxedCalls {T : Type} (s : SolverState T) (o : CompOutcome T) :
    (applyBest s o).relaxedCalls = s.relaxedCalls := by
  unfold applyBest
  split <;> rfl

@[simp] theorem applyBest_best_lb {T : Type} (s : SolverState T) (o : CompOutcome T) :
    (applyBest s o).best_lb = max s.best_lb o.best_value := by
  unfold applyBest
  split <;> simp <;> omega

theorem applyBest_best_node {T : Type} (s : SolverState T) (o : CompOutcome T) :
    (applyBest s o).best_node =
      if o.best_value > s.best_lb then o.best_node else s.best_node := by
  unfold applyBest
  split <;> simp_all

theorem popMax_eq_none_iff {α : Type} (le : α → α → Bool) (l : List α) :
    popMax le l = none ↔ l = [] := by
  cases l with
  | nil => simp [popMax]
  | cons x xs =>
    simp only [popMax]
    constructor
    · intro h
      exfalso
      revert h
      cases hp : popMax le xs with
      | none => simp
      | some p =>
        simp only []
        split <;> simp
    · intro h
      exact List.noConfusion h

theorem popMax_rest_mem {α : Type} (le : α → α → Bool) :
    ∀ (l : List α) (x : α) (rest : List α), popMax le l = some (x, rest) →
      ∀ y ∈ rest, y ∈ l := by
  intro l
  induction l with
  | nil => intro x rest h y hy; simp [popMax] at h
  | cons a as ih =>
    intro x rest h y hy
    simp only [popMax] at h
    cases hp : popMax le as with
    | none =>
      rw [hp] at h
      simp only [Option.some.injEq, Prod.mk.injEq] at h
      obtain ⟨h1, h2⟩ := h
      rw [← h2] at hy
      simp at hy
    | some p =>
      obtain ⟨mx, ms⟩ := p
      rw [hp] at h
      simp only [] at h
      split at h
      · simp only [Option.some.injEq, Prod.mk.injEq] at h
        obtain ⟨h1, h2⟩ := h
        rw [← h2] at hy
        rcases List.mem_cons.mp hy with hya | hyms
        · exact hya ▸ List.mem_cons_self a as
        · exact List.mem_cons_of_mem a (ih mx ms hp y hyms)
      · simp only [Option.some.injEq, Prod.mk.injEq] at h
        obtain ⟨h1, h2⟩ := h
        rw [← h2] at hy
        exact List.mem_cons_of_mem a hy

theorem bbStep_none_of_pop {T V : Type} (m : MddModel T V) (le : Node T → Node T → Bool)
    (s : SolverState T) (hp : popMax le s.fringe = none) : bbStep m le s = none := by
  unfold bbStep
  rw [hp]

theorem bbStep_eq {T V : Type} (m : MddModel T V) (le : Node T → Node T → Bool)
    (s : SolverState T) (node : Node T) (rest : List (Node T))
    (hp : popMax le s.fringe = some (node, rest)) :
    bbStep m le s =
      (if (stepU s node rest).best_lb ≥ (stepU s node rest).best_ub then
        some (true, stepU s node rest)
      else if node.info.ub < (stepU s node rest).best_lb then
        some (false, stepU s node rest)
      else if (m.restrictedRun (m.load_vars node) node (stepU s node rest).best_lb).is_exact
      then some (false, stepRestrict m s node rest)
      else some (false, stepRelax m s node rest)) := by
  unfold bbStep
  rw [hp]

@[simp] theorem stepRestrict_fringe {T V : Type} (m : MddModel T V) (s : SolverState T)
    (node : Node T) (rest : List (Node T)) : (stepRestrict m s node rest).fringe = rest := by
  simp [stepRestrict]

@[simp] theorem stepRestrict_explored {T V : Type} (m : MddModel T V) (s : SolverState T)
    (node : Node T) (rest : List (Node T)) :
    (stepRestrict m s node rest).explored = s.explored + 1 := by
  simp [stepRestrict]

@[simp] theorem stepRestrict_best_ub {T V : Type} (m : MddModel T V) (s : SolverState T)
    (node : Node T) (rest : List (Node T)) :
    (stepRestrict m s node rest).best_ub = min s.best_ub node.info.ub := by
  simp [stepRestrict]

@[simp] theorem stepRestrict_best_sol {T V : Type} (m : MddModel T V) (s : SolverState T)
    (node : Node T) (rest : List (Node T)) :
    (stepRestrict m s node rest).best_sol = s.best_sol := by
  simp [stepRestrict]

@[simp] theorem stepRestrict_restrictedCalls {T V : Type} (m : MddModel T V)
    (s : SolverState T) (node : Node T) (rest : List (Node T)) :
    (stepRestrict m s node rest).restrictedCalls = s.restrictedCalls + 1 := by
  simp [stepRestrict]

@[simp] theorem stepRestrict_relaxedCalls {T V : Type} (m : MddModel T V) (s : SolverState T)
    (node : Node T) (rest : List (Node T)) :
    (stepRestrict m s node rest).relaxedCalls = s.relaxedCalls := by
  simp [stepRestrict]

@[simp] theorem stepRestrict_best_lb {T V : Type} (m : MddModel T V) (s : SolverState T)
    (node : Node T) (rest : List (Node T)) :
    (stepRestrict m s node rest).best_lb =
      max s.best_lb (m.restrictedRun (m.load_vars node) node s.best_lb).best_value := by
  simp [stepRestrict]

theorem stepRestrict_best_node {T V : Type} (m : MddModel T V) (s : SolverState T)
    (node : Node T) (rest : List (Node T)) :
    (stepRestrict m s node rest).best_node =
      if (m.restrictedRun (m.load_vars node) node s.best_lb).best_value > s.best_lb then
        (m.restrictedRun (m.load_vars node) node s.best_lb).best_node
      else s.best_node := by
  unfold stepRestrict
  rw [applyBest_best_node]
  simp

theorem stepRelax_best_lb_le {T V : Type} (m : MddModel T V) (s : SolverState T)
    (node : Node T) (rest : List (Node T)) :
    (stepRestrict m s node rest).best_lb ≤ (stepRelax m s node rest).best_lb := by
  simp only [stepRelax]
  split <;> simp

@[simp] theorem stepRelax_best_sol {T V : Type} (m : MddModel T V) (s : SolverState T)
    (node : Node T) (rest : List (Node T)) :
    (stepRelax m s node rest).best_sol = s.best_sol := by
  simp only [stepRelax]
  split <;> simp

@[simp] theorem stepRelax_best_ub {T V : Type} (m : MddModel T V) (s : SolverState T)
    (node : Node T) (rest : List (Node T)) :
    (stepRelax m s node rest).best_ub = min s.best_ub node.info.ub := by
  simp only [stepRelax]
  split <;> simp

/-- C2: in any iteration of the driver loop of `BBSolver::maximize`,
`best_lb` never decreases: it is only assigned when a compiled MDD's
`best_value` strictly exceeds it, so the value after the iteration is at
least the value before it. -/
theorem bb_best_lb_monotone {T V : Type} (m : MddModel T V) (le : Node T → Node T → Bool)
    (s : SolverState T) (b : Bool) (s' : SolverState T)
    (h : bbStep m le s = some (b, s')) : s.best_lb ≤ s'.best_lb := by
  cases hp : popMax le s.fringe with
  | none =>
    rw [bbStep_none_of_pop m le s hp] at h
    exact Option.noConfusion h
  | some p =>
    obtain ⟨node, rest⟩ := p
    rw [bbStep_eq m le s node rest hp] at h
    split at h
    · simp only [Option.some.injEq, Prod.mk.injEq] at h
      rw [← h.2, stepU_best_lb]
    · split at h
      · simp only [Option.some.injEq, Prod.mk.injEq] at h
        rw [← h.2, stepU_best_lb]
      · split at h
        · simp only [Option.some.injEq, Prod.mk.injEq] at h
          rw [← h.2, stepRestrict_best_lb]
          omega
        · simp only [Option.some.injEq, Prod.mk.injEq] at h
          rw [← h.2]
          refine le_trans ?_ (stepRelax_best_lb_le m s node rest)
          rw [stepRestrict_best_lb]
          omega

/-- C5: a node popped from the fringe whose `ub` is at most the current
`best_lb` is not worked on: the iteration ends (here: because the
`best_ub` update makes `best_lb ≥ best_ub` fire the optimality exit,
which subsumes the explicit skip test) without any restricted or relaxed
compilation and without incrementing the explored counter. -/
theorem bb_skip_dominated_node {T V : Type} (m : MddModel T V) (le : Node T → Node T → Bool)
    (s : SolverState T) (node : Node T) (rest : List (Node T)) (b : Bool)
    (s' : SolverState T)
    (hpop : popMax le s.fringe = some (node, rest))
    (hub : node.info.ub ≤ s.best_lb)
    (h : bbStep m le s = some (b, s')) :
    s'.explored = s.explored ∧ s'.restrictedCalls = s.restrictedCalls ∧
      s'.relaxedCalls = s.relaxedCalls := by
  rw [bbStep_eq m le s node rest hpop] at h
  have hcond : (stepU s node rest).best_lb ≥ (stepU s node rest).best_ub := by
    rw [stepU_best_lb, stepU_best_ub]
    omega
  rw [if_pos hcond] at h
  simp only [Option.some.injEq, Prod.mk.injEq] at h
  rw [← h.2]
  exact ⟨stepU_explored s node rest, stepU_restrictedCalls s node rest,
    stepU_relaxedCalls s node rest⟩

/-- C6: for an explored node (it passed the break and skip guards), if
the restricted MDD compiled for it is exact then the iteration performs
no relaxed compilation and continues with the next fringe node, after the
guarded `best_lb` / `best_node` update from the restricted MDD's
`best_value`. -/
theorem bb_restricted_exact_skips_relaxation {T V : Type} (m : MddModel T V)
    (le : Node T → Node T → Bool) (s : SolverState T) (node : Node T)
    (rest : List (Node T))
    (hpop : popMax le s.fringe = some (node, rest))
    (hactive : s.best_lb < min s.best_ub node.info.ub)
    (hex : (m.restrictedRun (m.load_vars node) node s.best_lb).is_exact = true) :
    bbStep m le s = some (false, stepRestrict m s node rest) ∧
    (stepRestrict m s node rest).relaxedCalls = s.relaxedCalls ∧
    (stepRestrict m s node rest).explored = s.explored + 1 ∧
    (stepRestrict m s node rest).fringe = rest ∧
    (stepRestrict m s node rest).best_lb =
      max s.best_lb (m.restrictedRun (m.load_vars node) node s.best_lb).best_value ∧
    (stepRestrict m s node rest).best_node =
      (if (m.restrictedRun (m.load_vars node) node s.best_lb).best_value > s.best_lb then
        (m.restrictedRun (m.load_vars node) node s.best_lb).best_node
      else s.best_node) := by
  refine ⟨?_, stepRestrict_relaxedCalls m s node rest, stepRestrict_explored m s node rest,
    stepRestrict_fringe m s node rest, stepRestrict_best_lb m s node rest,
    stepRestrict_best_node m s node rest⟩
  rw [bbStep_eq m le s node rest hpop]
  have h1 : ¬ (stepU s node rest).best_lb ≥ (stepU s node rest).best_ub := by
    rw [stepU_best_lb, stepU_best_ub]
    omega
  have h2 : ¬ node.info.ub < (stepU s node rest).best_lb := by
    rw [stepU_best_lb]
    omega
  rw [if_neg h1, if_neg h2, stepU_best_lb, hex]
  rfl

theorem bbStep_none_fringe {T V : Type} (m : MddModel T V) (le : Node T → Node T → Bool)
    (s : SolverState T) (h : bbStep m le s = none) : s.fringe = [] := by
  cases hp : popMax le s.fringe with
  | none => exact (popMax_eq_none_iff le s.fringe).mp hp
  | some p =>
    obtain ⟨node, rest⟩ := p
    rw [bbStep_eq m le s node rest hp] at h
    split at h
    · exact Option.noConfusion h
    · split at h
      · exact Option.noConfusion h
      · split at h <;> exact Option.noConfusion h

theorem bbStep_true_break {T V : Type} (m : MddModel T V) (le : Node T → Node T → Bool)
    (s s' : SolverState T) (h : bbStep m le s = some (true, s')) :
    s'.best_lb ≥ s'.best_ub := by
  cases hp : popMax le s.fringe with
  | none =>
    rw [bbStep_none_of_pop m le s hp] at h
    exact Option.noConfusion h
  | some p =>
    obtain ⟨node, rest⟩ := p
    rw [bbStep_eq m le s node rest hp] at h
    split at h
    · rename_i hc
      simp only [Option.some.injEq, Prod.mk.injEq] at h
      rw [← h.2]
      exact hc
    · split at h
      · simp at h
      · split at h <;> simp at h

theorem bbStep_best_sol {T V : Type} (m : MddModel T V) (le : Node T → Node T → Bool)
    (s : SolverState T) (b : Bool) (s' : SolverState T)
    (h : bbStep m le s = some (b, s')) : s'.best_sol = s.best_sol := by
  cases hp : popMax le s.fringe with
  | none =>
    rw [bbStep_none_of_pop m le s hp] at h
    exact Option.noConfusion h
  | some p =>
    obtain ⟨node, rest⟩ := p
    rw [bbStep_eq m le s node rest hp] at h
    split at h
    · simp only [Option.some.injEq, Prod.mk.injEq] at h
      rw [← h.2, stepU_best_sol]
    · split at h
      · simp only [Option.some.injEq, Prod.mk.injEq] at h
        rw [← h.2, stepU_best_sol]
      · split at h
        · simp only [Option.some.injEq, Prod.mk.injEq] at h
          rw [← h.2, stepRestrict_best_sol]
        · simp only [Option.some.injEq, Prod.mk.injEq] at h
          rw [← h.2, stepRelax_best_sol]

theorem bbLoop_exit {T V : Type} (m : MddModel T V) (le : Node T → Node T → Bool) :
    ∀ (fuel : Nat) (s s' : SolverState T), bbLoop m le fuel s = some s' →
      s'.fringe = [] ∨ s'.best_lb ≥ s'.best_ub := by
  intro fuel
  induction fuel with
  | zero => intro s s' h; simp [bbLoop] at h
  | succ n ih =>
    intro s s' h
    simp only [bbLoop] at h
    cases hs : bbStep m le s with
    | none =>
      rw [hs] at h
      simp only [Option.some.injEq] at h
      rw [← h]
      exact Or.inl (bbStep_none_fringe m le s hs)
    | some p =>
      obtain ⟨b, s2⟩ := p
      rw [hs] at h
      cases b
      · simp only [] at h
        exact ih s2 s' h
      · simp only [Option.some.injEq] at h
        rw [← h]
        exact Or.inr (bbStep_true_break m le s s2 hs)

theorem bbLoop_best_sol {T V : Type} (m : MddModel T V) (le : Node T → Node T → Bool) :
    ∀ (fuel : Nat) (s s' : SolverState T), bbLoop m le fuel s = some s' →
      s'.best_sol = s.best_sol := by
  intro fuel
  induction fuel with
  | zero => intro s s' h; simp [bbLoop] at h
  | succ n ih =>
    intro s s' h
    simp only [bbLoop] at h
    cases hs : bbStep m le s with
    | none =>
      rw [hs] at h
      simp only [Option.some.injEq] at h
      rw [← h]
    | some p =>
      obtain ⟨b, s2⟩ := p
      rw [hs] at h
      cases b
      · simp only [] at h
        rw [ih s2 s' h, bbStep_best_sol m le s false s2 hs]
      · simp only [Option.some.injEq] at h
        rw [← h, bbStep_best_sol m le s true s2 hs]

theorem consumeCutsetInto_eq {T : Type} (bu bl : Int) :
    ∀ (cutset fringe : List (Node T)),
      consumeCutsetInto bu bl cutset fringe =
        ((cutset.map (fun c => Node.mk c.state (c.info.withUb (min bu c.info.ub)))).filter
          (fun c => bl < c.info.ub)).reverse ++ fringe := by
  intro cutset
  induction cutset with
  | nil => intro fringe; simp [consumeCutsetInto]
  | cons c cs ih =>
    intro fringe
    simp only [consumeCutsetInto, List.foldl_cons] at ih ⊢
    rw [ih]
    simp only [List.map_cons, List.filter_cons, ub_withUb]
    by_cases hc : bl < min bu c.info.ub
    · rw [if_pos hc]
      simp [hc]
    · rw [if_neg hc]
      simp [hc]

theorem stepRelax_fringe_mem {T V : Type} (m : MddModel T V) (s : SolverState T)
    (node : Node T) (rest : List (Node T)) :
    ∀ n ∈ (stepRelax m s node rest).fringe,
      n ∈ rest ∨ ((stepRelax m s node rest).best_lb < n.info.ub ∧
                  n.info.ub ≤ (stepRelax m s node rest).best_ub) := by
  intro n hn
  revert hn
  simp only [stepRelax]
  split
  · intro hn
    left
    simpa using hn
  · intro hn
    simp only [consumeCutsetInto_eq, applyBest_fringe, stepRestrict_fringe] at hn
    simp only [List.mem_append] at hn
    rcases hn with hn1 | hn2
    · rw [List.mem_reverse] at hn1
      obtain ⟨hmap, hpred⟩ := List.mem_filter.mp hn1
      obtain ⟨c, hc, hcn⟩ := List.mem_map.mp hmap
      simp only [decide_eq_true_eq] at hpred
      right
      constructor
      · simpa using hpred
      · rw [← hcn]
        simp [ub_withUb]
    · left
      simpa using hn2

/-- C3: when the relaxed MDD of an explored node is not exact, each
cutset node's `ub` is capped to `min(ub, best_ub)` and the node is pushed
into the fringe iff the capped `ub` strictly exceeds `best_lb`; hence
every node the step adds to the fringe satisfies
`best_lb < ub ≤ best_ub`. -/
theorem bb_cutset_capped_push {T V : Type} (m : MddModel T V)
    (le : Node T → Node T → Bool) (s : SolverState T) (b : Bool) (s' : SolverState T)
    (h : bbStep m le s = some (b, s')) :
    (∀ n ∈ s'.fringe, n ∈ s.fringe ∨
      (s'.best_lb < n.info.ub ∧ n.info.ub ≤ s'.best_ub)) ∧
    (∀ (bu bl : Int) (cutset oldFringe : List (Node T)),
      consumeCutsetInto bu bl cutset oldFringe =
        ((cutset.map (fun c => Node.mk c.state (c.info.withUb (min bu c.info.ub)))).filter
          (fun c => bl < c.info.ub)).reverse ++ oldFringe) := by
  refine ⟨?_, fun bu bl cutset oldFringe => consumeCutsetInto_eq bu bl cutset oldFringe⟩
  cases hp : popMax le s.fringe with
  | none =>
    rw [bbStep_none_of_pop m le s hp] at h
    exact Option.noConfusion h
  | some p =>
    obtain ⟨node, rest⟩ := p
    have hrest := popMax_rest_mem le s.fringe node rest hp
    rw [bbStep_eq m le s node rest hp] at h
    split at h
    · simp only [Option.some.injEq, Prod.mk.injEq] at h
      rw [← h.2]
      intro n hn
      rw [stepU_fringe] at hn
      exact Or.inl (hrest n hn)
    · split at h
      · simp only [Option.some.injEq, Prod.mk.injEq] at h
        rw [← h.2]
        intro n hn
        rw [stepU_fringe] at hn
        exact Or.inl (hrest n hn)
      · split at h
        · simp only [Option.some.injEq, Prod.mk.injEq] at h
          rw [← h.2]
          intro n hn
          rw [stepRestrict_fringe] at hn
          exact Or.inl (hrest n hn)
        · simp only [Option.some.injEq, Prod.mk.injEq] at h
          rw [← h.2]
          intro n hn
          rcases stepRelax_fringe_mem m s node rest n hn with hn1 | hn2
          · exact Or.inl (hrest n hn1)
          · exact Or.inr hn2

theorem finalizeSol_of_some {T : Type} {s : SolverState T} {bn : NodeInfo T}
    (h : s.best_node = some bn) :
    finalizeSol s = { s with best_sol := some bn.longest_path } := by
  unfold finalizeSol
  rw [h]

theorem finalizeSol_of_none {T : Type} {s : SolverState T}
    (h : s.best_node = none) : finalizeSol s = s := by
  unfold finalizeSol
  rw [h]

@[simp] theorem finalizeSol_fringe {T : Type} (s : SolverState T) :
    (finalizeSol s).fringe = s.fringe := by
  unfold finalizeSol
  cases h : s.best_node <;> rfl

@[simp] theorem finalizeSol_best_lb {T : Type} (s : SolverState T) :
    (finalizeSol s).best_lb = s.best_lb := by
  unfold finalizeSol
  cases h : s.best_node <;> rfl

@[simp] theorem finalizeSol_best_ub {T : Type} (s : SolverState T) :
    (finalizeSol s).best_ub = s.best_ub := by
  unfold finalizeSol
  cases h : s.best_node <;> rfl

@[simp] theorem finalizeSol_best_node {T : Type} (s : SolverState T) :
    (finalizeSol s).best_node = s.best_node := by
  unfold finalizeSol
  cases h : s.best_node <;> simp [h]

/-- C4: `BBSolver::maximize` returns only when the fringe is empty or
`best_lb ≥ best_ub` holds of the final solver state. -/
theorem bb_maximize_terminal_condition {T V : Type} (m : MddModel T V)
    (le : Node T → Node T → Bool) (fuel : Nat) (s0 sF : SolverState T) (v : Int)
    (sol : Option (List Decision))
    (h : maximize m le fuel s0 = some (sF, v, sol)) :
    sF.fringe = [] ∨ sF.best_lb ≥ sF.best_ub := by
  unfold maximize at h
  cases hl : bbLoop m le fuel { s0 with fringe := m.root :: s0.fringe } with
  | none =>
    rw [hl] at h
    exact Option.noConfusion h
  | some s =>
    rw [hl] at h
    simp only [Option.map_some', Option.some.injEq, Prod.mk.injEq] at h
    have hx := bbLoop_exit m le fuel _ s hl
    rw [← h.1]
    simpa using hx

/-- C7: the pair returned by `BBSolver::maximize` (on a solver whose
`best_sol` starts out `None`, as `BBSolver::new` initializes it) is
`(best_lb, best_sol)` of the final state, where `best_sol` is the longest
path reconstructed from `best_node` when `best_node` is present and
`None` when it is absent. -/
theorem bb_maximize_result_pair {T V : Type} (m : MddModel T V)
    (le : Node T → Node T → Bool) (fuel : Nat) (s0 sF : SolverState T) (v : Int)
    (sol : Option (List Decision))
    (hsol : s0.best_sol = none)
    (h : maximize m le fuel s0 = some (sF, v, sol)) :
    v = sF.best_lb ∧ sol = sF.best_sol ∧
    (∀ bn, sF.best_node = some bn → sF.best_sol = some bn.longest_path) ∧
    (sF.best_node = none → sF.best_sol = none) := by
  unfold maximize at h
  cases hl : bbLoop m le fuel { s0 with fringe := m.root :: s0.fringe } with
  | none =>
    rw [hl] at h
    exact Option.noConfusion h
  | some s =>
    rw [hl] at h
    simp only [Option.map_some', Option.some.injEq, Prod.mk.injEq] at h
    obtain ⟨h1, h2, h3⟩ := h
    have hbs : s.best_sol = none := by
      rw [bbLoop_best_sol m le fuel _ s hl]
      exact hsol
    subst h1
    refine ⟨h2.symm, h3.symm, ?_, ?_⟩
    · intro bn hbn2
      rw [finalizeSol_best_node] at hbn2
      rw [finalizeSol_of_some hbn2]
    · intro hnone
      rw [finalizeSol_best_node] at hnone
      rw [finalizeSol_of_none hnone]
      exact hbs

/-- C8: if the solver starts as after `BBSolver::new` except that
`best_lb` is seeded with a value at least the root's `ub`, then
`maximize` stops on the first pop with `explored = 0`, no restricted and
no relaxed compilation, and returns the seeded `best_lb` unchanged. -/
theorem bb_seeded_lb_stops_immediately {T V : Type} (m : MddModel T V)
    (le : Node T → Node T → Bool) (fuel : Nat) (lb0 : Int)
    (hfuel : 1 ≤ fuel) (hub : m.root.info.ub ≤ lb0) :
    maximize m le fuel { initState T with best_lb := lb0 } =
      some (⟨[], 0, min i32Max m.root.info.ub, lb0, none, none, 0, 0⟩, lb0, none) := by
  obtain ⟨n, rfl⟩ : ∃ n, fuel = n + 1 := ⟨fuel - 1, by omega⟩
  have hP : { ({ initState T with best_lb := lb0 } : SolverState T) with
      fringe := m.root :: ({ initState T with best_lb := lb0 } : SolverState T).fringe } =
      (⟨[m.root], 0, i32Max, lb0, none, none, 0, 0⟩ : SolverState T) := rfl
  have hpop : popMax le ((⟨[m.root], 0, i32Max, lb0, none, none, 0, 0⟩ :
      SolverState T)).fringe = some (m.root, []) := rfl
  have hstep : bbStep m le (⟨[m.root], 0, i32Max, lb0, none, none, 0, 0⟩ : SolverState T) =
      some (true, ⟨[], 0, min i32Max m.root.info.ub, lb0, none, none, 0, 0⟩) := by
    rw [bbStep_eq m le _ m.root [] hpop]
    have hc : (stepU (⟨[m.root], 0, i32Max, lb0, none, none, 0, 0⟩ : SolverState T)
        m.root []).best_lb ≥ (stepU (⟨[m.root], 0, i32Max, lb0, none, none, 0, 0⟩ :
        SolverState T) m.root []).best_ub := by
      rw [stepU_best_lb, stepU_best_ub]
      show lb0 ≥ min i32Max m.root.info.ub
      omega
    rw [if_pos hc]
    unfold stepU
    rw [updateUb_eq]
  unfold maximize
  rw [hP]
  simp only [bbLoop]
  rw [hstep]
  rfl

/-- Witness for C2: a concrete driver step on the one-node model raises
`best_lb` from `i32::MIN` to `0`. -/
theorem bb_best_lb_monotone_witness :
    ({ initState Unit with fringe := [trivModel.root] } : SolverState Unit).best_lb ≤
      (⟨[], 1, 0, 0, none, none, 1, 0⟩ : SolverState Unit).best_lb :=
  bb_best_lb_monotone trivModel leTrue
    { initState Unit with fringe := [trivModel.root] } false
    ⟨[], 1, 0, 0, none, none, 1, 0⟩ rfl

/-- Witness for C3: the fringe-membership bound and the cutset push
characterization instantiated on a concrete driver step. -/
theorem bb_cutset_capped_push_witness :
    (∀ n ∈ (⟨[], 1, 0, 0, none, none, 1, 0⟩ : SolverState Unit).fringe,
      n ∈ ({ initState Unit with fringe := [trivModel.root] } : SolverState Unit).fringe ∨
      ((⟨[], 1, 0, 0, none, none, 1, 0⟩ : SolverState Unit).best_lb < n.info.ub ∧
        n.info.ub ≤ (⟨[], 1, 0, 0, none, none, 1, 0⟩ : SolverState Unit).best_ub)) ∧
    (∀ (bu bl : Int) (cutset oldFringe : List (Node Unit)),
      consumeCutsetInto bu bl cutset oldFringe =
        ((cutset.map (fun c => Node.mk c.state (c.info.withUb (min bu c.info.ub)))).filter
          (fun c => bl < c.info.ub)).reverse ++ oldFringe) :=
  bb_cutset_capped_push trivModel leTrue
    { initState Unit with fringe := [trivModel.root] } false
    ⟨[], 1, 0, 0, none, none, 1, 0⟩ rfl

/-- Witness for C4: a terminating concrete run ends with an empty
fringe. -/
theorem bb_maximize_terminal_condition_witness :
    (⟨[], 1, 0, 0, none, none, 1, 0⟩ : SolverState Unit).fringe = [] ∨
      (⟨[], 1, 0, 0, none, none, 1, 0⟩ : SolverState Unit).best_lb ≥
        (⟨[], 1, 0, 0, none, none, 1, 0⟩ : SolverState Unit).best_ub :=
  bb_maximize_terminal_condition trivModel leTrue 2 (initState Unit)
    ⟨[], 1, 0, 0, none, none, 1, 0⟩ 0 none rfl

/-- Witness for C5: popping a node whose `ub = 0` against `best_lb = 5`
does no work. -/
theorem bb_skip_dominated_node_witness :
    (⟨[], 0, 0, 5, none, none, 0, 0⟩ : SolverState Unit).explored =
      ({ initState Unit with fringe := [trivModel.root], best_lb := 5 } :
        SolverState Unit).explored ∧
    (⟨[], 0, 0, 5, none, none, 0, 0⟩ : SolverState Unit).restrictedCalls =
      ({ initState Unit with fringe := [trivModel.root], best_lb := 5 } :
        SolverState Unit).restrictedCalls ∧
    (⟨[], 0, 0, 5, none, none, 0, 0⟩ : SolverState Unit).relaxedCalls =
      ({ initState Unit with fringe := [trivModel.root], best_lb := 5 } :
        SolverState Unit).relaxedCalls :=
  bb_skip_dominated_node trivModel leTrue
    { initState Unit with fringe := [trivModel.root], best_lb := 5 }
    trivModel.root [] true ⟨[], 0, 0, 5, none, none, 0, 0⟩ rfl (by decide) rfl

/-- Witness for C6: the one-node model's restricted compilation is exact,
so the concrete step performs no relaxation. -/
theorem bb_restricted_exact_skips_relaxation_witness :
    bbStep trivModel leTrue ({ initState Unit with fringe := [trivModel.root] } :
        SolverState Unit) =
      some (false, stepRestrict trivModel
        { initState Unit with fringe := [trivModel.root] } trivModel.root []) ∧
    (stepRestrict trivModel { initState Unit with fringe := [trivModel.root] }
        trivModel.root []).relaxedCalls =
      ({ initState Unit with fringe := [trivModel.root] } : SolverState Unit).relaxedCalls ∧
    (stepRestrict trivModel { initState Unit with fringe := [trivModel.root] }
        trivModel.root []).explored =
      ({ initState Unit with fringe := [trivModel.root] } : SolverState Unit).explored + 1 ∧
    (stepRestrict trivModel { initState Unit with fringe := [trivModel.root] }
        trivModel.root []).fringe = [] ∧
    (stepRestrict trivModel { initState Unit with fringe := [trivModel.root] }
        trivModel.root []).best_lb =
      max ({ initState Unit with fringe := [trivModel.root] } :
          SolverState Unit).best_lb
        (trivModel.restrictedRun (trivModel.load_vars trivModel.root) trivModel.root
          ({ initState Unit with fringe := [trivModel.root] } :
            SolverState Unit).best_lb).best_value ∧
    (stepRestrict trivModel { initState Unit with fringe := [trivModel.root] }
        trivModel.root []).best_node =
      (if (trivModel.restrictedRun (trivModel.load_vars trivModel.root) trivModel.root
            ({ initState Unit with fringe := [trivModel.root] } :
              SolverState Unit).best_lb).best_value >
          ({ initState Unit with fringe := [trivModel.root] } :
            SolverState Unit).best_lb then
        (trivModel.restrictedRun (trivModel.load_vars trivModel.root) trivModel.root
          ({ initState Unit with fringe := [trivModel.root] } :
            SolverState Unit).best_lb).best_node
      else ({ initState Unit with fringe := [trivModel.root] } :
        SolverState Unit).best_node) :=
  bb_restricted_exact_skips_relaxation trivModel leTrue
    { initState Unit with fringe := [trivModel.root] } trivModel.root [] rfl
    (by decide) rfl

/-- Witness for C7: the returned pair of a concrete terminating run. -/
theorem bb_maximize_result_pair_witness :
    (0 : Int) = (⟨[], 1, 0, 0, none, none, 1, 0⟩ : SolverState Unit).best_lb ∧
    (none : Option (List Decision)) =
      (⟨[], 1, 0, 0, none, none, 1, 0⟩ : SolverState Unit).best_sol ∧
    (∀ bn, (⟨[], 1, 0, 0, none, none, 1, 0⟩ : SolverState Unit).best_node = some bn →
      (⟨[], 1, 0, 0, none, none, 1, 0⟩ : SolverState Unit).best_sol =
        some bn.longest_path) ∧
    ((⟨[], 1, 0, 0, none, none, 1, 0⟩ : SolverState Unit).best_node = none →
      (⟨[], 1, 0, 0, none, none, 1, 0⟩ : SolverState Unit).best_sol = none) :=
  bb_maximize_result_pair trivModel leTrue 2 (initState Unit)
    ⟨[], 1, 0, 0, none, none, 1, 0⟩ 0 none rfl rfl

/-- Witness for C8: seeding `best_lb = 5` against a root with `ub = 0`
terminates at once with the seed returned. -/
theorem bb_seeded_lb_stops_immediately_witness :
    maximize trivModel leTrue 1 { initState Unit with best_lb := 5 } =
      some (⟨[], 0, min i32Max trivModel.root.info.ub, 5, none, none, 0, 0⟩, 5, none) :=
  bb_seeded_lb_stops_immediately trivModel leTrue 1 5 (by decide) (by decide)

end Ddo.BB

namespace Ddo.Mcp

open Ddo

/-- C1: the claim that `McpRelax::merge_nodes` always returns an
`lp_len` at least the maximum input `lp_len` fails on the code: with one
variable and input nodes whose benefits are `[1]` (with `lp_len = 10`)
and `[-5]` (with `lp_len = 0`), `substate_signs` short-circuits on the
first node's positive sign, the merged benefit becomes `min(1, -5) = -5`,
and the merged `lp_len` evaluates to `6 < 10`. -/
theorem mcp_merge_lp_len_below_contributor :
    ((merge_nodes (McpRelax.new 1)
        [⟨⟨true, [1]⟩, .mk true 10 none 100⟩,
         ⟨⟨true, [-5]⟩, .mk true 0 none 50⟩]).map (fun n => n.info.lp_len)) = some 6 ∧
    ¬ ((10 : Int) ≤ 6) := by
  constructor
  · rfl
  · decide

theorem mapM_some_exists_of_forall {α β : Type} (f : α → Option β) :
    ∀ (l : List α), (∀ a ∈ l, (f a).isSome) →
      ∃ l2, l.mapM f = some l2 ∧ l2.length = l.length := by
  intro l
  induction l with
  | nil => intro _; exact ⟨[], rfl, rfl⟩
  | cons a as ih =>
    intro hall
    obtain ⟨b, hb⟩ := Option.isSome_iff_exists.mp (hall a (List.mem_cons_self a as))
    obtain ⟨bs, hbs, hlen⟩ := ih (fun x hx => hall x (List.mem_cons_of_mem a hx))
    refine ⟨b :: bs, ?_, by simp [hlen]⟩
    rw [List.mapM_cons, hb, hbs]
    rfl

theorem mapM_some_length {α β : Type} (f : α → Option β) :
    ∀ (l : List α) (l2 : List β), l.mapM f = some l2 → l2.length = l.length := by
  intro l
  induction l with
  | nil =>
    intro l2 h
    simp only [List.mapM_nil] at h
    cases h
    rfl
  | cons a as ih =>
    intro l2 h
    rw [List.mapM_cons] at h
    cases hb : f a with
    | none => rw [hb] at h; exact Option.noConfusion h
    | some b =>
      rw [hb] at h
      cases hbs : as.mapM f with
      | none => rw [hbs] at h; exact Option.noConfusion h
      | some bs =>
        rw [hbs] at h
        have h2 : b :: bs = l2 := by simpa using h
        rw [← h2]
        simp [ih bs hbs]

/-- Splitting the outer loop of `relax_cost` at the head node: running
the per-variable updates on `(c0 :: costs)` zipped with `(n0 :: nodes)`
is the same as running them on the head cost alone and on the tail
independently. -/
theorem relax_fold_cons (merged : McpState) :
    ∀ (vs : List Variable) (n0 : Node McpState) (c0 : Int)
      (nodes : List (Node McpState)) (costs : List Int),
    vs.foldlM
      (fun (cl : List Int) (v : Variable) => ((cl.zip (n0 :: nodes)).mapM
        (fun cn => (difference_of_abs_benefit v cn.2.state merged).map (fun d => cn.1 + d))))
      (c0 :: costs) =
    (vs.foldlM
      (fun (c : Int) (v : Variable) =>
        (difference_of_abs_benefit v n0.state merged).map (fun d => c + d))
      c0).bind (fun ch =>
        (vs.foldlM
          (fun (cl : List Int) (v : Variable) => ((cl.zip nodes).mapM
            (fun cn =>
              (difference_of_abs_benefit v cn.2.state merged).map (fun d => cn.1 + d))))
          costs).bind (fun ct => some (ch :: ct))) := by
  intro vs
  induction vs with
  | nil => intro n0 c0 nodes costs; rfl
  | cons v vs ih =>
    intro n0 c0 nodes costs
    simp only [List.foldlM_cons, List.zip_cons_cons, List.mapM_cons]
    cases hd : difference_of_abs_benefit v n0.state merged with
    | none => simp [hd]
    | some d0 =>
      cases ht : (costs.zip nodes).mapM
          (fun cn =>
            (difference_of_abs_benefit v cn.2.state merged).map (fun d => cn.1 + d)) with
      | none => simp [hd, ht]
      | some tl =>
        simp only [hd, ht, Option.map_some', Option.bind_eq_bind, Option.some_bind]
        simpa using ih n0 (c0 + d0) nodes tl

/-- The outer loop of `relax_cost` (variables outside, nodes inside)
computes exactly the per-node adjusted-cost folds. -/
theorem relax_fold_eq_mapM (merged : McpState) :
    ∀ (nodes : List (Node McpState)) (vs : List Variable) (costs : List Int),
      costs.length = nodes.length →
      vs.foldlM
        (fun (cl : List Int) (v : Variable) => ((cl.zip nodes).mapM
          (fun cn =>
            (difference_of_abs_benefit v cn.2.state merged).map (fun d => cn.1 + d))))
        costs =
      (costs.zip nodes).mapM (fun (cn : Int × Node McpState) =>
        vs.foldlM
          (fun (c : Int) (v : Variable) =>
            (difference_of_abs_benefit v cn.2.state merged).map (fun d => c + d))
          cn.1) := by
  intro nodes
  induction nodes with
  | nil =>
    intro vs costs hlen
    have hc : costs = [] := List.length_eq_zero.mp hlen
    subst hc
    induction vs with
    | nil => rfl
    | cons v vs ihv =>
      simp only [List.foldlM_cons]
      simpa using ihv
  | cons n0 ns ih =>
    intro vs costs hlen
    cases costs with
    | nil => simp at hlen
    | cons c0 cs =>
      have hlen2 : cs.length = ns.length := by simpa using hlen
      rw [relax_fold_cons merged vs n0 c0 ns cs, ih vs cs hlen2]
      simp only [List.zip_cons_cons, List.mapM_cons, Option.bind_eq_bind]
      cases hh : vs.foldlM
          (fun c v => (difference_of_abs_benefit v n0.state merged).map (fun d => c + d))
          c0 with
      | none => simp [hh]
      | some ch =>
        cases htl : (cs.zip ns).mapM (fun cn =>
            vs.foldlM
              (fun c v =>
                (difference_of_abs_benefit v cn.2.state merged).map (fun d => c + d))
              cn.1) with
        | none => simp [hh, htl]
        | some ct => simp [hh, htl]

/-- Zipping a list with the image of its own `lp_len` projection turns
the pointwise folds into `adjusted_cost`. -/
theorem mapM_zip_map_self (r : McpRelax) (merged : McpState) :
    ∀ (nodes : List (Node McpState)),
      (((nodes.map (fun n => n.info.lp_len)).zip nodes).mapM
        (fun (cn : Int × Node McpState) =>
          r.vars.foldlM
            (fun (c : Int) (v : Variable) =>
              (difference_of_abs_benefit v cn.2.state merged).map (fun d => c + d))
            cn.1)) =
      nodes.mapM (fun n => adjusted_cost r n merged) := by
  intro nodes
  induction nodes with
  | nil => rfl
  | cons n ns ih =>
    simp only [List.map_cons, List.zip_cons_cons, List.mapM_cons]
    rw [ih]
    rfl

/-- Invariant proof for the selection loop at the end of `relax_cost`:
starting from a sound partial maximum, it returns the position and value
of the first maximum of the whole list. -/
theorem select_best_go_spec :
    ∀ (rest : List Int) (costs : List Int) (idx best : Nat) (longest : Int),
      rest = costs.drop idx →
      costs.get? best = some longest →
      (∀ j, j < idx → ∀ cj, costs.get? j = some cj → cj ≤ longest) →
      (∀ j, j < best → ∀ cj, costs.get? j = some cj → cj < longest) →
      costs.get? (select_best_go rest idx best longest).1 =
          some (select_best_go rest idx best longest).2 ∧
      (∀ j cj, costs.get? j = some cj → cj ≤ (select_best_go rest idx best longest).2) ∧
      (∀ j, j < (select_best_go rest idx best longest).1 →
        ∀ cj, costs.get? j = some cj → cj < (select_best_go rest idx best longest).2) := by
  intro rest
  induction rest with
  | nil =>
    intro costs idx best longest hdrop hbest hub hlt
    simp only [select_best_go]
    refine ⟨hbest, ?_, hlt⟩
    intro j cj hj
    have hidx : costs.length ≤ idx := List.drop_eq_nil_iff.mp hdrop.symm
    have hjlen : j < costs.length := (List.get?_eq_some.mp hj).1
    exact hub j (lt_of_lt_of_le hjlen hidx) cj hj
  | cons c rest ih =>
    intro costs idx best longest hdrop hbest hub hlt
    have hgetidx : costs.get? idx = some c := by
      have h0 : (costs.drop idx).get? 0 = some c := by rw [← hdrop]; rfl
      rw [List.get?_drop] at h0
      simpa using h0
    have hdrop2 : rest = costs.drop (idx + 1) := by
      calc rest = (c :: rest).drop 1 := rfl
        _ = (costs.drop idx).drop 1 := by rw [hdrop]
        _ = costs.drop (idx + 1) := by rw [List.drop_drop]
    simp only [select_best_go]
    by_cases hc : c > longest
    · rw [if_pos hc]
      apply ih costs (idx + 1) idx c hdrop2 hgetidx
      · intro j hj cj hcj
        rcases Nat.lt_succ_iff_lt_or_eq.mp hj with hj2 | hj2
        · exact le_of_lt (lt_of_le_of_lt (hub j hj2 cj hcj) hc)
        · subst hj2
          rw [hgetidx] at hcj
          cases hcj
          exact le_refl _
      · intro j hj cj hcj
        exact lt_of_le_of_lt (hub j hj cj hcj) hc
    · rw [if_neg hc]
      apply ih costs (idx + 1) best longest hdrop2 hbest
      · intro j hj cj hcj
        rcases Nat.lt_succ_iff_lt_or_eq.mp hj with hj2 | hj2
        · exact hub j hj2 cj hcj
        · subst hj2
          rw [hgetidx] at hcj
          cases hcj
          omega
      · exact hlt

theorem relax_cost_fold_eq (r : McpRelax) (nodes : List (Node McpState))
    (merged : McpState) :
    r.vars.foldlM
      (fun (costs : List Int) (v : Variable) =>
        (costs.zip nodes).mapM
          (fun cn => (difference_of_abs_benefit v cn.2.state merged).map (fun d => cn.1 + d)))
      (nodes.map (fun n => n.info.lp_len)) =
    nodes.mapM (fun n => adjusted_cost r n merged) := by
  rw [relax_fold_eq_mapM merged nodes r.vars (nodes.map (fun n => n.info.lp_len)) (by simp)]
  exact mapM_zip_map_self r merged nodes

theorem relax_cost_spec {r : McpRelax} {nodes : List (Node McpState)} {merged : McpState}
    {lp : Int} {via : Node McpState}
    (h : relax_cost r nodes merged = some (lp, via)) :
    ∃ costs k,
      nodes.mapM (fun n => adjusted_cost r n merged) = some costs ∧
      costs.get? k = some lp ∧ nodes.get? k = some via ∧
      (∀ j cj, costs.get? j = some cj → cj ≤ lp) ∧
      (∀ j, j < k → ∀ cj, costs.get? j = some cj → cj < lp) := by
  unfold relax_cost at h
  rw [relax_cost_fold_eq r nodes merged] at h
  cases hm : nodes.mapM (fun n => adjusted_cost r n merged) with
  | none =>
    rw [hm] at h
    exact absurd h (by simp)
  | some costs =>
    rw [hm] at h
    simp only [Option.bind_eq_bind, Option.some_bind] at h
    cases costs with
    | nil => simp at h
    | cons c0 crest =>
      simp only [] at h
      cases hg : nodes.get? (select_best_go (c0 :: crest) 0 0 c0).1 with
      | none =>
        rw [hg] at h
        simp at h
      | some via0 =>
        rw [hg] at h
        simp only [Option.pure_def, Option.some.injEq, Prod.mk.injEq] at h
        obtain ⟨hlp, hvia⟩ := h
        obtain ⟨hget, hmax, hfirst⟩ :=
          select_best_go_spec (c0 :: crest) (c0 :: crest) 0 0 c0 rfl rfl
            (fun j hj => absurd hj (Nat.not_lt_zero j))
            (fun j hj => absurd hj (Nat.not_lt_zero j))
        refine ⟨c0 :: crest, (select_best_go (c0 :: crest) 0 0 c0).1, rfl, ?_, ?_, ?_, ?_⟩
        · rw [hget, hlp]
        · rw [hg, hvia]
        · intro j cj hcj
          rw [← hlp]
          exact hmax j cj hcj
        · intro j hj cj hcj
          rw [← hlp]
          exact hfirst j hj cj hcj

/-- C9: whenever `McpRelax::merge_nodes` succeeds, the returned node's
`lp_len` is the adjusted cost (input `lp_len` plus the per-variable
relaxation adjustment against the merged state) of a representative input
node; that representative realizes the maximum adjusted cost and is the
earliest such node in the slice, and the merged node carries its `lp_arc`
and `ub` (with `is_exact = false`). -/
theorem mcp_merge_nodes_representative {r : McpRelax} {nodes : List (Node McpState)}
    {result : Node McpState} (h : merge_nodes r nodes = some result) :
    ∃ costs k via,
      nodes.mapM (fun n => adjusted_cost r n result.state) = some costs ∧
      costs.get? k = some result.info.lp_len ∧
      nodes.get? k = some via ∧
      result.info.lp_arc = via.info.lp_arc ∧
      result.info.ub = via.info.ub ∧
      result.info.is_exact = false ∧
      (∀ j cj, costs.get? j = some cj → cj ≤ result.info.lp_len) ∧
      (∀ j, j < k → ∀ cj, costs.get? j = some cj → cj < result.info.lp_len) := by
  unfold merge_nodes at h
  cases hms : merge_states r nodes with
  | none =>
    rw [hms] at h
    exact absurd h (by simp)
  | some ms =>
    rw [hms] at h
    simp only [Option.bind_eq_bind, Option.some_bind] at h
    cases hrc : relax_cost r nodes ms with
    | none =>
      rw [hrc] at h
      exact absurd h (by simp)
    | some lv =>
      obtain ⟨lp, via⟩ := lv
      rw [hrc] at h
      simp only [Option.some_bind, Option.pure_def, Option.some.injEq] at h
      obtain ⟨costs, k, hmapm, hgetc, hgetn, hmax, hfirst⟩ := relax_cost_spec hrc
      subst h
      exact ⟨costs, k, via, hmapm, hgetc, hgetn, rfl, rfl, rfl, hmax, hfirst⟩

/-- Witness for C9 on a concrete merge of two single-variable nodes with
benefits `[2]` (`lp_len = 5`) and `[3]` (`lp_len = 7`): the merged state
has benefit `[2]`, the adjusted costs are `[5, 8]`, and the
representative is the second node. -/
theorem mcp_merge_nodes_representative_witness :
    ∃ costs k via,
      [(⟨⟨true, [2]⟩, .mk true 5 none 7⟩ : Node McpState),
        ⟨⟨true, [3]⟩, .mk true 7 none 9⟩].mapM
          (fun n => adjusted_cost (McpRelax.new 1) n
            ((⟨⟨false, [2]⟩, .mk false 8 none 9⟩ : Node McpState)).state) = some costs ∧
      costs.get? k =
        some ((⟨⟨false, [2]⟩, .mk false 8 none 9⟩ : Node McpState)).info.lp_len ∧
      [(⟨⟨true, [2]⟩, .mk true 5 none 7⟩ : Node McpState),
        ⟨⟨true, [3]⟩, .mk true 7 none 9⟩].get? k = some via ∧
      ((⟨⟨false, [2]⟩, .mk false 8 none 9⟩ : Node McpState)).info.lp_arc =
        via.info.lp_arc ∧
      ((⟨⟨false, [2]⟩, .mk false 8 none 9⟩ : Node McpState)).info.ub = via.info.ub ∧
      ((⟨⟨false, [2]⟩, .mk false 8 none 9⟩ : Node McpState)).info.is_exact = false ∧
      (∀ j cj, costs.get? j = some cj →
        cj ≤ ((⟨⟨false, [2]⟩, .mk false 8 none 9⟩ : Node McpState)).info.lp_len) ∧
      (∀ j, j < k → ∀ cj, costs.get? j = some cj →
        cj < ((⟨⟨false, [2]⟩, .mk false 8 none 9⟩ : Node McpState)).info.lp_len) :=
  @mcp_merge_nodes_representative (McpRelax.new 1)
    [⟨⟨true, [2]⟩, .mk true 5 none 7⟩, ⟨⟨true, [3]⟩, .mk true 7 none 9⟩]
    ⟨⟨false, [2]⟩, .mk false 8 none 9⟩ rfl

theorem substate_signs_go_isSome (v : Variable) :
    ∀ (nodes : List (Node McpState)) (signs : Nat),
      (∀ n ∈ nodes, v.id < n.state.benef.length) →
      (substate_signs_go v nodes signs).isSome := by
  intro nodes
  induction nodes with
  | nil => intro signs _; rfl
  | cons n ns ih =>
    intro signs hb
    simp only [substate_signs_go]
    rw [List.get?_eq_get (hb n (List.mem_cons_self n ns))]
    simp only []
    split
    · split
      · rfl
      · exact ih _ (fun x hx => hb x (List.mem_cons_of_mem n hx))
    · split
      · split
        · rfl
        · exact ih _ (fun x hx => hb x (List.mem_cons_of_mem n hx))
      · split
        · rfl
        · exact ih _ (fun x hx => hb x (List.mem_cons_of_mem n hx))

theorem minimum_substate_isSome (v : Variable) (nodes : List (Node McpState))
    (hne : nodes ≠ []) (hb : ∀ n ∈ nodes, v.id < n.state.benef.length) :
    (minimum_substate v nodes).isSome := by
  unfold minimum_substate
  obtain ⟨vals, hv, hlen⟩ := mapM_some_exists_of_forall
    (fun (n : Node McpState) => n.state.benef.get? v.id) nodes
    (fun n hn => by
      show (n.state.benef.get? v.id).isSome = true
      rw [List.get?_eq_get (hb n hn)]
      rfl)
  rw [hv]
  simp only [Option.bind_eq_bind, Option.some_bind]
  cases hmin : vals.min? with
  | none =>
    exfalso
    apply hne
    have hv0 : vals = [] := List.min?_eq_none_iff.mp hmin
    rw [hv0] at hlen
    exact (List.length_eq_zero.mp hlen.symm)
  | some mv => rfl

theorem minimum_abs_value_of_substate_isSome (v : Variable) (nodes : List (Node McpState))
    (hne : nodes ≠ []) (hb : ∀ n ∈ nodes, v.id < n.state.benef.length) :
    (minimum_abs_value_of_substate v nodes).isSome := by
  unfold minimum_abs_value_of_substate
  obtain ⟨vals, hv, hlen⟩ := mapM_some_exists_of_forall
    (fun (n : Node McpState) => (n.state.benef.get? v.id).map (fun x => |x|)) nodes
    (fun n hn => by
      show ((n.state.benef.get? v.id).map (fun x => |x|)).isSome = true
      rw [List.get?_eq_get (hb n hn)]
      rfl)
  rw [hv]
  simp only [Option.bind_eq_bind, Option.some_bind]
  cases hmin : vals.min? with
  | none =>
    exfalso
    apply hne
    have hv0 : vals = [] := List.min?_eq_none_iff.mp hmin
    rw [hv0] at hlen
    exact (List.length_eq_zero.mp hlen.symm)
  | some mv => rfl

theorem merge_substates_isSome (v : Variable) (nodes : List (Node McpState))
    (hne : nodes ≠ []) (hb : ∀ n ∈ nodes, v.id < n.state.benef.length) :
    (merge_substates v nodes).isSome := by
  unfold merge_substates
  cases hs : substate_signs v nodes with
  | none =>
    exfalso
    have := substate_signs_go_isSome v nodes 0 hb
    unfold substate_signs at hs
    rw [hs] at this
    exact Bool.noConfusion this
  | some signs =>
    simp only [Option.bind_eq_bind, Option.some_bind]
    split
    · exact minimum_substate_isSome v nodes hne hb
    · split
      · cases habs : minimum_abs_value_of_substate v nodes with
        | none =>
          exfalso
          have := minimum_abs_value_of_substate_isSome v nodes hne hb
          rw [habs] at this
          exact Bool.noConfusion this
        | some mv => simp [habs]
      · rfl

theorem merge_states_foldlM (nodes : List (Node McpState)) :
    ∀ (vs : List Variable) (data : List Int),
      (∀ v ∈ vs, v.id < data.length ∧ (merge_substates v nodes).isSome) →
      ∃ out,
        vs.foldlM
          (fun data v => do
            let s ← merge_substates v nodes
            if v.id < data.length then pure (data.set v.id s) else none)
          data = some out ∧ out.length = data.length := by
  intro vs
  induction vs with
  | nil => intro data _; exact ⟨data, rfl, rfl⟩
  | cons v vs ih =>
    intro data hall
    obtain ⟨hvlt, hvsome⟩ := hall v (List.mem_cons_self v vs)
    obtain ⟨s, hs⟩ := Option.isSome_iff_exists.mp hvsome
    obtain ⟨out, hout, hlen⟩ := ih (data.set v.id s)
      (fun w hw => by
        rw [List.length_set]
        exact hall w (List.mem_cons_of_mem v hw))
    refine ⟨out, ?_, by rw [hlen, List.length_set]⟩
    rw [List.foldlM_cons, hs]
    simp only [Option.bind_eq_bind, Option.some_bind, hvlt, if_pos]
    exact hout

theorem merge_states_some {r : McpRelax} {nodes : List (Node McpState)}
    (hvars : ∀ v ∈ r.vars, v.id < r.nb_vars)
    (hsub : ∀ v ∈ r.vars, (merge_substates v nodes).isSome) :
    ∃ ms, merge_states r nodes = some ms ∧ ms.benef.length = r.nb_vars := by
  unfold merge_states
  obtain ⟨out, hout, hlen⟩ := merge_states_foldlM nodes r.vars
    (List.replicate r.nb_vars (0 : Int))
    (fun v hv => ⟨by simpa using hvars v hv, hsub v hv⟩)
  rw [hout]
  exact ⟨⟨false, out⟩, rfl, by simpa using hlen⟩

theorem adjusted_cost_fold_isSome (st merged : McpState) :
    ∀ (vs : List Variable) (c : Int),
      (∀ v ∈ vs, (difference_of_abs_benefit v st merged).isSome) →
      (vs.foldlM
        (fun (c : Int) (v : Variable) =>
          (difference_of_abs_benefit v st merged).map (fun d => c + d))
        c).isSome := by
  intro vs
  induction vs with
  | nil => intro c _; rfl
  | cons v vs ih =>
    intro c hall
    obtain ⟨d, hd⟩ := Option.isSome_iff_exists.mp (hall v (List.mem_cons_self v vs))
    rw [List.foldlM_cons, hd]
    simp only [Option.map_some', Option.bind_eq_bind, Option.some_bind]
    exact ih (c + d) (fun w hw => hall w (List.mem_cons_of_mem v hw))

theorem adjusted_cost_isSome {r : McpRelax} {n : Node McpState} {merged : McpState}
    (hb : ∀ v ∈ r.vars, v.id < n.state.benef.length)
    (hm : ∀ v ∈ r.vars, v.id < merged.benef.length) :
    (adjusted_cost r n merged).isSome := by
  unfold adjusted_cost
  apply adjusted_cost_fold_isSome
  intro v hv
  unfold difference_of_abs_benefit
  rw [List.get?_eq_get (hb v hv), List.get?_eq_get (hm v hv)]
  rfl

theorem relax_cost_isSome {r : McpRelax} {nodes : List (Node McpState)}
    {merged : McpState} (hne : nodes ≠ [])
    (hadj : ∀ n ∈ nodes, (adjusted_cost r n merged).isSome) :
    (relax_cost r nodes merged).isSome := by
  unfold relax_cost
  rw [relax_cost_fold_eq r nodes merged]
  obtain ⟨costs, hc, hlen⟩ := mapM_some_exists_of_forall
    (fun n => adjusted_cost r n merged) nodes hadj
  rw [hc]
  simp only [Option.bind_eq_bind, Option.some_bind]
  cases costs with
  | nil =>
    exfalso
    apply hne
    exact List.length_eq_zero.mp (by simpa using hlen.symm)
  | cons c0 crest =>
    simp only []
    obtain ⟨hget, _, _⟩ :=
      select_best_go_spec (c0 :: crest) (c0 :: crest) 0 0 c0 rfl rfl
        (fun j hj => absurd hj (Nat.not_lt_zero j))
        (fun j hj => absurd hj (Nat.not_lt_zero j))
    have hklt : (select_best_go (c0 :: crest) 0 0 c0).1 < (c0 :: crest).length :=
      (List.get?_eq_some.mp hget).1
    have hklt2 : (select_best_go (c0 :: crest) 0 0 c0).1 < nodes.length := by
      rw [← hlen]
      exact hklt
    rw [List.get?_eq_get hklt2]
    rfl

/-- C10: `McpRelax::merge_nodes` is total on every non-empty input slice
whose nodes' `benef` vectors are indexable at every variable of the
relaxation's variable set and whose variable ids are below `nb_vars`; on
the empty slice the computation fails (it indexes `relaxed_costs[0]`,
which does not exist). -/
theorem mcp_merge_nodes_totality {r : McpRelax} {nodes : List (Node McpState)}
    (hvars : ∀ v ∈ r.vars, v.id < r.nb_vars)
    (hben : ∀ n ∈ nodes, ∀ v ∈ r.vars, v.id < n.state.benef.length) :
    (nodes ≠ [] → (merge_nodes r nodes).isSome) ∧ merge_nodes r [] = none := by
  constructor
  · intro hne
    unfold merge_nodes
    have hsub : ∀ v ∈ r.vars, (merge_substates v nodes).isSome := fun v hv =>
      merge_substates_isSome v nodes hne (fun n hn => hben n hn v hv)
    obtain ⟨ms, hms, hmslen⟩ := merge_states_some hvars hsub
    rw [hms]
    simp only [Option.bind_eq_bind, Option.some_bind]
    have hadj : ∀ n ∈ nodes, (adjusted_cost r n ms).isSome := fun n hn =>
      adjusted_cost_isSome (fun v hv => hben n hn v hv)
        (fun v hv => by rw [hmslen]; exact hvars v hv)
    cases hrcv : relax_cost r nodes ms with
    | none =>
      exfalso
      have := relax_cost_isSome hne hadj
      rw [hrcv] at this
      exact Bool.noConfusion this
    | some lv => rfl
  · unfold merge_nodes
    have hsub0 : ∀ v ∈ r.vars, (merge_substates v ([] : List (Node McpState))).isSome :=
      fun v _ => rfl
    obtain ⟨ms, hms, _⟩ := merge_states_some hvars hsub0
    rw [hms]
    simp only [Option.bind_eq_bind, Option.some_bind]
    unfold relax_cost
    rw [relax_cost_fold_eq r [] ms]
    rfl

/-- Witness for C10: a singleton slice with an indexable benefit vector
merges successfully, and the empty slice fails. -/
theorem mcp_merge_nodes_totality_witness :
    (([(⟨⟨true, [2]⟩, .mk true 5 none 7⟩ : Node McpState)] ≠ []) →
      (merge_nodes (McpRelax.new 1)
        [(⟨⟨true, [2]⟩, .mk true 5 none 7⟩ : Node McpState)]).isSome) ∧
    merge_nodes (McpRelax.new 1) [] = none :=
  @mcp_merge_nodes_totality (McpRelax.new 1)
    [⟨⟨true, [2]⟩, .mk true 5 none 7⟩]
    (by decide) (by decide)

end Ddo.Mcp
